import Mathlib

/-!
Verification of the stdout-rotator tee-and-rotate engine (`src/main.rs`)
against its natural-language specification.

The Rust program is shallowly embedded as executable Lean functions:

* File names (Rust `OsString` / `String`) are lists of characters (`Name`).
* Fallible Rust code returning `Result<_, RotatorError>` is embedded with the
  three-valued outcome type `RRes`: `ok`, `err` (a `RotatorError` carrying its
  message) and `panic` (a call to `unwrap()` on `None`/`Err`).
* The `regex` crate calls in `next_file` are embedded by a small regular
  expression type `RE` with a derivative-based matcher.  `parseBase` mirrors
  `Regex::new` on the pattern `^<base>\.(?<digit>[0-9]+)(\.gz)?$` built by the
  source: the base name is spliced in verbatim (the source does not escape it),
  so its characters are interpreted as pattern syntax.  The model interprets
  plain characters, `.` (any character), `+` and `*` (repetition); the
  remaining special characters are treated as ill-formed patterns, which makes
  `Regex::new(..).unwrap()` a `panic` (no theorem below exercises characters
  where the `regex` crate would instead accept the pattern).
* The filesystem is reduced to what the claims mention: the rotation
  directory is a list of file names, the live file is its length and the
  write position of its handle.  Deletions and file creation are assumed to
  succeed; their error paths are not in any claim proved here.
* Paths (`std::path::Path`) are represented by their parsed components,
  with `file_name` / `parent` following the documented Rust semantics.
* Machine integers are `Nat`/`Int` with overflow made explicit where it
  matters: `parseI32` fails above `i32::MAX`, and the planner's
  `maximum + 1` is `i32` addition, modelled by two's-complement wrapping
  (`wrap32`, the semantics of a release build; a debug build would panic
  there instead).
-/

namespace StdoutRotator

/-- Outcome of embedded Rust code: normal value, `Err(RotatorError)` with its
message, or a panic (`unwrap` of `None` / of an `Err`). -/
inductive RRes (α : Type) where
  | ok (a : α)
  | err (msg : String)
  | panic
  deriving DecidableEq

/-- File names are lists of characters. -/
abbrev Name := List Char

/-- Shorthand turning a string literal into a `Name`. -/
def nm (s : String) : Name := s.toList

/-- One component of a `std::path::Path`. -/
inductive PComp where
  | normal (s : Name)
  | curDir
  | parentDir
  deriving DecidableEq

/-- A parsed `std::path::Path`: whether it is absolute, and its components. -/
structure RPath where
  abs : Bool
  comps : List PComp
  deriving DecidableEq

/-- `Path::file_name`: the final component when it is a normal component. -/
def fileName (p : RPath) : Option Name :=
  match p.comps.getLast? with
  | some (PComp.normal s) => some s
  | _ => none

/-- `Path::parent`: the path without its final component; `None` for the root
path and the empty path. -/
def parentPath (p : RPath) : Option RPath :=
  match p.comps with
  | [] => none
  | _ => some ⟨p.abs, p.comps.dropLast⟩

end StdoutRotator

namespace StdoutRotator

/-- Regular expressions, the fragment needed for the pattern
`^<base>\.(?<digit>[0-9]+)(\.gz)?$` built by `next_file`. -/
inductive RE where
  | void
  | eps
  | chr (c : Char)
  | dot
  | alt (r₁ r₂ : RE)
  | seq (r₁ r₂ : RE)
  | star (r : RE)
  deriving DecidableEq

/-- Whether a regular expression accepts the empty word. -/
def nullable : RE → Bool
  | .void => false
  | .eps => true
  | .chr _ => false
  | .dot => false
  | .alt a b => nullable a || nullable b
  | .seq a b => nullable a && nullable b
  | .star _ => true

/-- Brzozowski derivative of a regular expression by one character. -/
def deriv : RE → Char → RE
  | .void, _ => .void
  | .eps, _ => .void
  | .chr c, a => if a = c then .eps else .void
  | .dot, _ => .eps
  | .alt r s, a => .alt (deriv r a) (deriv s a)
  | .seq r s, a =>
      if nullable r then .alt (.seq (deriv r a) s) (deriv s a)
      else .seq (deriv r a) s
  | .star r, a => .seq (deriv r a) (.star r)

/-- Derivative-based matcher: does `r` accept exactly the word `s`? -/
def reMatchL : RE → List Char → Bool
  | r, [] => nullable r
  | r, c :: cs => reMatchL (deriv r c) cs

/-- Characters the `regex` crate treats as pattern syntax. -/
def metachar (c : Char) : Bool :=
  c = '.' || c = '+' || c = '*' || c = '?' || c = '(' || c = ')' ||
  c = '[' || c = ']' || c = '{' || c = '}' || c = '|' || c = '^' ||
  c = '$' || c = '\\'

/-- A name free of pattern syntax: splicing it into a pattern matches it
literally. -/
def plain (s : Name) : Bool := s.all (fun c => !(metachar c))

/-- Append a pending atom (if any) to the pattern parsed so far. -/
def reCombine : RE → Option RE → RE
  | d, none => d
  | d, some a => .seq d a

/-- Worker for `parseBase`: `d` is the pattern parsed so far, `l` the last
atom (kept apart so that a following repetition operator can apply to it). -/
def parseBaseGo : RE → Option RE → List Char → Option RE
  | d, l, [] => some (reCombine d l)
  | d, l, c :: cs =>
      if c = '.' then parseBaseGo (reCombine d l) (some .dot) cs
      else if c = '+' then
        match l with
        | none => none
        | some a => parseBaseGo (reCombine d (some (.seq a (.star a)))) none cs
      else if c = '*' then
        match l with
        | none => none
        | some a => parseBaseGo (reCombine d (some (.star a))) none cs
      else if metachar c then none
      else parseBaseGo (reCombine d l) (some (.chr c)) cs

/-- `Regex::new` applied to the base-name part of the pattern that `next_file`
formats.  The source splices the base name in verbatim, without escaping. -/
def parseBase (b : Name) : Option RE := parseBaseGo .eps none b

/-- Is `c` one of the characters matched by `[0-9]`? -/
def isDigitCh (c : Char) : Bool := 48 ≤ c.toNat && c.toNat ≤ 57

/-- The suffix of the pattern after the base name: `\.(?<digit>[0-9]+)\.gz`
when compression is on, `\.(?<digit>[0-9]+)` otherwise.  Returns the text
captured by the `digit` group. -/
def suffixDigits (compression : Bool) (s : Name) : Option Name :=
  match s with
  | [] => none
  | ch :: rest =>
      if ch = '.' then
        if compression then
          let ds := rest.take (rest.length - 3)
          let tl := rest.drop (rest.length - 3)
          if tl = nm ".gz" && !ds.isEmpty && ds.all isDigitCh then some ds
          else none
        else
          if !rest.isEmpty && rest.all isDigitCh then some rest else none
      else none

/-- `path_regex.captures(&file_name)` for the anchored pattern
`^<base-regex>\.(?<digit>[0-9]+)(\.gz variant)$`: the name matches when it
splits into a part accepted by the base regex followed by a valid suffix; the
split is searched greedily (longest base part first, matching the greedy
semantics of the `regex` crate for these patterns).  Returns the text captured
by the `digit` group. -/
def matchArchive (re : RE) (compression : Bool) (n : Name) : Option Name :=
  (List.range (n.length + 1)).reverse.findSome? (fun i =>
    if reMatchL re (n.take i) then suffixDigits compression (n.drop i)
    else none)

/-- Decimal value of a digit string. -/
def digitsToNat (ds : Name) : Nat :=
  ds.foldl (fun a c => 10 * a + (c.toNat - 48)) 0

/-- `str::parse::<i32>` on a string of decimal digits: fails when the value
does not fit in a 32-bit signed integer. -/
def parseI32 (ds : Name) : Option Int :=
  if !ds.isEmpty && ds.all isDigitCh then
    if digitsToNat ds ≤ 2147483647 then some ((digitsToNat ds : Nat) : Int)
    else none
  else none

/-- The decimal digit characters. -/
def digitChar (d : Nat) : Char :=
  match d with
  | 0 => '0' | 1 => '1' | 2 => '2' | 3 => '3' | 4 => '4'
  | 5 => '5' | 6 => '6' | 7 => '7' | 8 => '8' | _ => '9'

/-- Fuelled worker for `natDigits` (structural recursion so that concrete
instances reduce inside the kernel). -/
def natDigitsAux : Nat → Nat → List Char
  | 0, _ => []
  | fuel + 1, n =>
      if n < 10 then [digitChar n]
      else natDigitsAux fuel (n / 10) ++ [digitChar (n % 10)]

/-- Decimal rendering of a natural number, as `format!("{}", n)` produces. -/
def natDigits (n : Nat) : List Char := natDigitsAux (n + 1) n

/-- Two's-complement wrapping of an unbounded integer into `i32`, written
with the explicit `% 2^32`.  This is what Rust `i32` addition does in a
release build (`overflow-checks` off); a debug build would panic on
overflow instead. -/
def wrap32 (n : Int) : Int := (n + 2147483648) % 4294967296 - 2147483648

/-- Decimal rendering of an `i32` value, as `format!("{}", n)` produces
(a negative value prints with a leading minus sign). -/
def intDigits (n : Int) : List Char :=
  if n < 0 then '-' :: natDigits (-n).toNat else natDigits n.toNat

/-- The archive file name `format!("{}.{}", base, n)` plus `.gz` when
compression is on. -/
def archive_name (compression : Bool) (b : Name) (n : Int) : Name :=
  b ++ '.' :: (intDigits n ++ (if compression then nm ".gz" else []))

/-- The digit captured from a directory entry, parsed as an `i32`:
`none` when the entry does not match the pattern or its digits overflow. -/
def digitOfName (re : RE) (compression : Bool) (n : Name) : Option Int :=
  (matchArchive re compression n).bind parseI32

/-- One step of the `maximum` update in `next_file`'s scan loop:
`if maximum <= parsed { maximum = parsed }`. -/
def maxStep (re : RE) (compression : Bool) (m : Int) (n : Name) : Int :=
  match digitOfName re compression n with
  | some d => if m ≤ d then d else m
  | none => m

/-- The scan loop of `next_file` over the directory listing: collects the
matching entries with their parsed numbers (in listing order) and the running
maximum; panics (`parse::<i32>().unwrap()`) on a matching entry whose number
overflows an `i32`. -/
def scanGo (re : RE) (compression : Bool) :
    List (Int × Name) → Int → List Name → RRes (List (Int × Name) × Int)
  | acc, m, [] => .ok (acc, m)
  | acc, m, n :: rest =>
      match matchArchive re compression n with
      | none => scanGo re compression acc m rest
      | some ds =>
          match parseI32 ds with
          | none => .panic
          | some d =>
              scanGo re compression (acc ++ [(d, n)])
                (if m ≤ d then d else m) rest

/-- Stable insertion into a list sorted ascending by the parsed number. -/
def insertByDigit (x : Int × Name) : List (Int × Name) → List (Int × Name)
  | [] => [x]
  | y :: ys => if x.1 < y.1 then x :: y :: ys else y :: insertByDigit x ys

/-- `existing_rotated.sort_by(|(d1,_),(d2,_)| d1.cmp(d2))`: a stable ascending
sort by the parsed number (insertion sort, extensionally equal to the stable
sort used by Rust). -/
def sortByDigit : List (Int × Name) → List (Int × Name)
  | [] => []
  | x :: xs => insertByDigit x (sortByDigit xs)

/-- The rotation plan computed by `next_file`: the existing archives sorted
ascending by number, and the name of the next archive. -/
structure RotationResult where
  existing_rotated : List Name
  next_rotation : Name
  deriving DecidableEq

/-- The rotation planner `next_file`.  `listing` stands for
`fs::read_dir` on the rotation directory: `none` is a failed directory read
(mapped to an error), `some names` the entries found.  Entry names are kept
relative to the rotation directory, which is fixed for the whole run (the
source stores them as `PathBuf`s prefixed by the same directory).  Mirrors the
source order: `parent().unwrap()`, directory read, `file_name().unwrap()`,
`Regex::new(..).unwrap()`, scan loop, sort, next name.  The next number is
`maximum + 1` computed in `i32` arithmetic: `wrap32` makes the overflow at
`maximum = i32::MAX` explicit (release-build wrapping). -/
def next_file (compression : Bool) (output_file : RPath)
    (rotation_directory : Option Name) (listing : Option (List Name)) :
    RRes RotationResult :=
  match parentPath output_file with
  | none => .panic
  | some _ =>
      match listing with
      | none => .err "Error while listing files"
      | some names =>
          match fileName output_file with
          | none => .panic
          | some base_name =>
              match parseBase base_name with
              | none => .panic
              | some re =>
                  match scanGo re compression [] 0 names with
                  | .panic => .panic
                  | .err e => .err e
                  | .ok (pairs, maximum) =>
                      .ok ⟨(sortByDigit pairs).map (·.2),
                           archive_name compression base_name
                             (wrap32 (maximum + 1))⟩

/-- The retention enforcer `cleanup_rotations`: when more than `max_files`
archives exist, deletes the excess oldest ones (the prefix of the
ascending-sorted existing list).  Deletions are assumed to succeed; the
deletion-failure path is not the subject of any claim proved here. -/
def cleanup_rotations (max_files : Nat) (rr : RotationResult)
    (dir : List Name) : List Name :=
  if rr.existing_rotated.length > max_files then
    (rr.existing_rotated.take (rr.existing_rotated.length - max_files)).foldl
      (fun d n => d.erase n) dir
  else dir

/-- The live file and rotation directory as seen by the file-relay thread:
the handle's write position, the file length, and the names present in the
rotation directory. -/
structure FState where
  pos : Nat
  len : Nat
  dir : List Name
  deriving DecidableEq

/-- The rotation executor `perform_rotation`.  Returns the new state and
whether the rotation branch ran (`false` exactly for the early
`position <= max_size` return; the source returns `Ok(())` in both cases, the
flag only records which path was taken).  In the rotation branch the plan is
computed, then: with `max_history == 0` all existing archives are deleted and
the live file is truncated and rewound, no archive written; otherwise
retention keeps `max_history - 1`, the live file is streamed into the next
archive (created if absent), then truncated and rewound. -/
def perform_rotation (st : FState) (max_history : Nat) (max_size : Nat)
    (compress : Bool) (output_file : RPath)
    (rotation_directory : Option Name) : RRes (FState × Bool) :=
  if st.pos ≤ max_size then .ok (st, false)
  else
    match next_file compress output_file rotation_directory (some st.dir) with
    | .panic => .panic
    | .err e => .err e
    | .ok rr =>
        if max_history = 0 then
          .ok (⟨0, 0, cleanup_rotations 0 rr st.dir⟩, true)
        else
          let dir' := cleanup_rotations (max_history - 1) rr st.dir
          let dir'' :=
            if rr.next_rotation ∈ dir' then dir'
            else dir' ++ [rr.next_rotation]
          .ok (⟨0, 0, dir''⟩, true)

/-- Number of directory entries matching the archive pattern for base name
`b` under the given compression mode. -/
def countArchives (compression : Bool) (b : Name) (dir : List Name) : Nat :=
  match parseBase b with
  | none => 0
  | some re => dir.countP (fun n => (matchArchive re compression n).isSome)

/-- Largest archive number among the entries of `dir` matching the pattern
for base name `b` (0 when none match), as `next_file`'s scan computes it. -/
def maxDigitsOf (compression : Bool) (b : Name) (dir : List Name) : Int :=
  match parseBase b with
  | none => 0
  | some re => dir.foldl (maxStep re compression) 0

/-- The literal matcher the spec describes: the entry is the escaped base
name, a dot, one or more digits, and `.gz` exactly when compression is on.
Modelled from the spec: "matches each entry's file name against the pattern
`^<escaped-base-name>\.(\d+)(\.gz)?$`, selecting the `.gz` variant when
`compress` is true and the bare variant otherwise". -/
def spec_matches (compression : Bool) (b : Name) (n : Name) : Bool :=
  n.take b.length = b && (suffixDigits compression (n.drop b.length)).isSome

/-- The matcher the source actually runs: the unescaped base name compiled as
a pattern, then a dot, digits, and the compression-selected suffix. -/
def code_matches (compression : Bool) (b : Name) (n : Name) : Bool :=
  match parseBase b with
  | none => false
  | some re => (matchArchive re compression n).isSome

/-- Bytes written to standard output by the stdout relay
(`start_stdout_writing`) when it receives the given chunks in order.
`oracle i` is the byte count the `i`-th call to `Stdout::write` reports as
accepted (the `io::Write` contract allows any count up to the buffer length;
the model clamps it).  The source ignores this count, so only the accepted
prefix of each chunk reaches standard output. -/
def stdout_writes (oracle : Nat → Nat) : Nat → List (List Nat) → List Nat
  | _, [] => []
  | i, c :: rest =>
      c.take (min (oracle i) c.length) ++ stdout_writes oracle (i + 1) rest

/-- Output of the stdout relay over a whole run. -/
def start_stdout_writing (oracle : Nat → Nat) (chunks : List (List Nat)) :
    List Nat :=
  stdout_writes oracle 0 chunks

/-- Events performed by the ingest loop `start_read_cycle`, in program
order. -/
inductive Ev where
  | read (chunk : List Nat)
  | sendStdout (chunk : List Nat)
  | sendFile (chunk : List Nat)
  | recvAck
  deriving DecidableEq

/-- Event trace of `start_read_cycle` on a run whose successive non-empty
`stdin` reads are `cs` (followed by the zero-byte read that ends the loop):
per chunk, one read, one send to the stdout relay, one send to the file relay,
then two blocking receives on the shared acknowledgment channel.  A failing
read, send or receive aborts the loop, producing a prefix of this trace. -/
def read_cycle_trace : List (List Nat) → List Ev
  | [] => [.read []]
  | c :: rest =>
      .read c :: .sendStdout c :: .sendFile c :: .recvAck :: .recvAck ::
        read_cycle_trace rest

/-- The observable steps of `app`, in program order. -/
inductive AppAct where
  | configLogger
  | planStartup
  | cleanupStartup
  | spawnStdout
  | spawnFile
  | readCycle
  | joinStdout
  | joinFile
  deriving DecidableEq

/-- The top-level `app`, parameterised by the outcome of each fallible step
(logger setup, startup plan, startup cleanup, file-relay spawn, ingest loop,
and the two thread joins).  Returns the result `app` propagates and the list
of steps it performed: each `?` aborts the sequence with the first error. -/
def app (rConfig rPlan rCleanup rSpawnFile rRead rJoinStdout rJoinFile :
    Except String Unit) : Except String Unit × List AppAct :=
  match rConfig with
  | .error e => (.error e, [.configLogger])
  | .ok _ =>
  match rPlan with
  | .error e => (.error e, [.configLogger, .planStartup])
  | .ok _ =>
  match rCleanup with
  | .error e => (.error e, [.configLogger, .planStartup, .cleanupStartup])
  | .ok _ =>
  match rSpawnFile with
  | .error e =>
      (.error e, [.configLogger, .planStartup, .cleanupStartup, .spawnStdout,
        .spawnFile])
  | .ok _ =>
  match rRead with
  | .error e =>
      (.error e, [.configLogger, .planStartup, .cleanupStartup, .spawnStdout,
        .spawnFile, .readCycle])
  | .ok _ =>
  match rJoinStdout with
  | .error _ =>
      (.error "Error on join of stdout",
       [.configLogger, .planStartup, .cleanupStartup, .spawnStdout,
        .spawnFile, .readCycle, .joinStdout])
  | .ok _ =>
  match rJoinFile with
  | .error _ =>
      (.error "Error on join of file",
       [.configLogger, .planStartup, .cleanupStartup, .spawnStdout,
        .spawnFile, .readCycle, .joinStdout, .joinFile])
  | .ok _ =>
      (.ok (),
       [.configLogger, .planStartup, .cleanupStartup, .spawnStdout,
        .spawnFile, .readCycle, .joinStdout, .joinFile])

/-- The pattern `parseBase` produces on a base name free of pattern syntax:
a left-nested sequence of its characters. -/
def litFold (b : Name) : RE :=
  b.foldl (fun a c => RE.seq a (RE.chr c)) RE.eps

/-- Language semantics of the regular expression fragment.  A repetition
accepts concatenations of non-empty accepted words (the non-emptiness is
harmless since `star r` also accepts `[]` directly, and it makes inversion on
the first character available). -/
inductive RMatch : RE → List Char → Prop where
  | eps : RMatch .eps []
  | chr (c : Char) : RMatch (.chr c) [c]
  | dot (c : Char) : RMatch .dot [c]
  | altL {r₁ r₂ s} : RMatch r₁ s → RMatch (.alt r₁ r₂) s
  | altR {r₁ r₂ s} : RMatch r₂ s → RMatch (.alt r₁ r₂) s
  | seq {r₁ r₂ u v} : RMatch r₁ u → RMatch r₂ v → RMatch (.seq r₁ r₂) (u ++ v)
  | starNil {r} : RMatch (.star r) []
  | starCons {r c u v} : RMatch r (c :: u) → RMatch (.star r) v →
      RMatch (.star r) (c :: u ++ v)

/-! ### Correctness of the derivative-based matcher -/

theorem rmatch_void {w : Name} : ¬ RMatch .void w := by
  intro h; cases h

theorem rmatch_eps_iff {w : Name} : RMatch .eps w ↔ w = [] := by
  constructor
  · intro h; cases h; rfl
  · rintro rfl; exact .eps

theorem rmatch_chr_iff {c : Char} {w : Name} : RMatch (.chr c) w ↔ w = [c] := by
  constructor
  · intro h; cases h; rfl
  · rintro rfl; exact .chr c

theorem rmatch_alt_iff {r₁ r₂ : RE} {w : Name} :
    RMatch (.alt r₁ r₂) w ↔ RMatch r₁ w ∨ RMatch r₂ w := by
  constructor
  · intro h
    cases h with
    | altL h => exact Or.inl h
    | altR h => exact Or.inr h
  · rintro (h | h)
    · exact .altL h
    · exact .altR h

theorem rmatch_seq_iff {r₁ r₂ : RE} {w : Name} :
    RMatch (.seq r₁ r₂) w ↔
      ∃ u v, w = u ++ v ∧ RMatch r₁ u ∧ RMatch r₂ v := by
  constructor
  · intro h
    cases h with
    | seq h₁ h₂ => exact ⟨_, _, rfl, h₁, h₂⟩
  · rintro ⟨u, v, rfl, h₁, h₂⟩
    exact .seq h₁ h₂

theorem rmatch_star_cons_iff {r : RE} {c : Char} {w : Name} :
    RMatch (.star r) (c :: w) ↔
      ∃ u v, w = u ++ v ∧ RMatch r (c :: u) ∧ RMatch (.star r) v := by
  constructor
  · intro h
    cases h with
    | starCons h₁ h₂ => exact ⟨_, _, rfl, h₁, h₂⟩
  · rintro ⟨u, v, rfl, h₁, h₂⟩
    exact .starCons h₁ h₂

theorem nullable_iff (r : RE) : nullable r = true ↔ RMatch r [] := by
  induction r with
  | void => simp [nullable, rmatch_void]
  | eps => simp [nullable, rmatch_eps_iff]
  | chr c => simp [nullable, rmatch_chr_iff]
  | dot =>
    constructor
    · intro h; simp [nullable] at h
    · intro h; cases h
  | alt r₁ r₂ ih₁ ih₂ => simp [nullable, rmatch_alt_iff, ih₁, ih₂]
  | seq r₁ r₂ ih₁ ih₂ =>
    simp only [nullable, Bool.and_eq_true, ih₁, ih₂, rmatch_seq_iff]
    constructor
    · rintro ⟨h₁, h₂⟩; exact ⟨[], [], rfl, h₁, h₂⟩
    · rintro ⟨u, v, huv, h₁, h₂⟩
      rcases List.append_eq_nil.mp huv.symm with ⟨rfl, rfl⟩
      exact ⟨h₁, h₂⟩
  | star r _ => simp [nullable]; exact .starNil

theorem deriv_iff (r : RE) (c : Char) :
    ∀ s : Name, RMatch (deriv r c) s ↔ RMatch r (c :: s) := by
  induction r with
  | void =>
    intro s; simp only [deriv]
    exact ⟨fun h => absurd h rmatch_void, fun h => absurd h rmatch_void⟩
  | eps =>
    intro s; simp only [deriv]
    constructor
    · intro h; exact absurd h rmatch_void
    · intro h; cases h
  | chr b =>
    intro s; simp only [deriv]
    by_cases hc : c = b
    · subst hc
      rw [if_pos rfl]
      simp [rmatch_eps_iff, rmatch_chr_iff]
    · rw [if_neg hc]
      constructor
      · intro h; exact absurd h rmatch_void
      · intro h
        cases h
        exact absurd rfl hc
  | dot =>
    intro s; simp only [deriv, rmatch_eps_iff]
    constructor
    · rintro rfl; exact .dot c
    · intro h; cases h; rfl
  | alt r₁ r₂ ih₁ ih₂ =>
    intro s
    simp [deriv, rmatch_alt_iff, ih₁, ih₂]
  | seq r₁ r₂ ih₁ ih₂ =>
    intro s
    simp only [deriv]
    by_cases hn : nullable r₁
    · rw [if_pos hn]
      rw [rmatch_alt_iff, rmatch_seq_iff, rmatch_seq_iff]
      constructor
      · rintro (⟨u, v, rfl, h₁, h₂⟩ | h)
        · exact ⟨c :: u, v, rfl, (ih₁ u).mp h₁, h₂⟩
        · exact ⟨[], c :: s, rfl, (nullable_iff r₁).mp hn, (ih₂ s).mp h⟩
      · rintro ⟨u, v, huv, h₁, h₂⟩
        match u, huv with
        | [], huv =>
          right
          rw [List.nil_append] at huv
          subst huv
          exact (ih₂ s).mpr h₂
        | a :: u, huv =>
          left
          rw [List.cons_append, List.cons.injEq] at huv
          obtain ⟨rfl, rfl⟩ := huv
          exact ⟨u, v, rfl, (ih₁ u).mpr h₁, h₂⟩
    · rw [if_neg hn]
      rw [rmatch_seq_iff, rmatch_seq_iff]
      constructor
      · rintro ⟨u, v, rfl, h₁, h₂⟩
        exact ⟨c :: u, v, rfl, (ih₁ u).mp h₁, h₂⟩
      · rintro ⟨u, v, huv, h₁, h₂⟩
        match u, huv with
        | [], huv =>
          exact absurd ((nullable_iff r₁).mpr h₁) hn
        | a :: u, huv =>
          rw [List.cons_append, List.cons.injEq] at huv
          obtain ⟨rfl, rfl⟩ := huv
          exact ⟨u, v, rfl, (ih₁ u).mpr h₁, h₂⟩
  | star r ih =>
    intro s
    simp only [deriv, rmatch_seq_iff, rmatch_star_cons_iff]
    constructor
    · rintro ⟨u, v, rfl, h₁, h₂⟩
      exact ⟨u, v, rfl, (ih u).mp h₁, h₂⟩
    · rintro ⟨u, v, rfl, h₁, h₂⟩
      exact ⟨u, v, rfl, (ih u).mpr h₁, h₂⟩

theorem reMatchL_iff (s : Name) : ∀ r : RE, reMatchL r s = true ↔ RMatch r s := by
  induction s with
  | nil => intro r; exact nullable_iff r
  | cons c cs ih =>
    intro r
    rw [reMatchL, ih (deriv r c), deriv_iff]

/-! ### Patterns built from literal base names -/

theorem rmatch_foldl_seq_chr (cs : Name) :
    ∀ (r : RE) (s : Name),
      RMatch (cs.foldl (fun a c => RE.seq a (RE.chr c)) r) s ↔
        ∃ u, s = u ++ cs ∧ RMatch r u := by
  induction cs with
  | nil => intro r s; simp
  | cons c cs ih =>
    intro r s
    rw [List.foldl_cons, ih]
    constructor
    · rintro ⟨u, rfl, hu⟩
      rcases rmatch_seq_iff.mp hu with ⟨u₁, u₂, rfl, h₁, h₂⟩
      rcases rmatch_chr_iff.mp h₂ with rfl
      exact ⟨u₁, by simp, h₁⟩
    · rintro ⟨u, rfl, hu⟩
      exact ⟨u ++ [c], by simp, rmatch_seq_iff.mpr ⟨u, [c], rfl, hu, .chr c⟩⟩

theorem reMatchL_litFold (b s : Name) : reMatchL (litFold b) s = true ↔ s = b := by
  rw [reMatchL_iff, litFold, rmatch_foldl_seq_chr]
  constructor
  · rintro ⟨u, rfl, hu⟩
    rcases rmatch_eps_iff.mp hu with rfl
    rfl
  · rintro rfl
    exact ⟨[], rfl, .eps⟩

theorem parseBaseGo_plain (cs : Name) :
    (∀ c ∈ cs, metachar c = false) →
    ∀ (d : RE) (l : Option RE),
      parseBaseGo d l cs =
        some (cs.foldl (fun a c => RE.seq a (RE.chr c)) (reCombine d l)) := by
  induction cs with
  | nil => intro _ d l; rfl
  | cons c cs ih =>
    intro hm d l
    have hc : metachar c = false := hm c (List.mem_cons_self c cs)
    have hdot : ¬ c = '.' := by
      intro h; subst h; simp [metachar] at hc
    have hplus : ¬ c = '+' := by
      intro h; subst h; simp [metachar] at hc
    have hstar : ¬ c = '*' := by
      intro h; subst h; simp [metachar] at hc
    have hstep : parseBaseGo d l (c :: cs) =
        parseBaseGo (reCombine d l) (some (RE.chr c)) cs := by
      rw [parseBaseGo.eq_def]
      simp [hdot, hplus, hstar, hc]
    rw [hstep, ih (fun x hx => hm x (List.mem_cons_of_mem c hx))]
    rfl

theorem parseBase_plain (b : Name) (h : plain b = true) :
    parseBase b = some (litFold b) := by
  have hm : ∀ c ∈ b, metachar c = false := by
    intro c hc
    have := List.all_eq_true.mp h c hc
    simpa using this
  rw [parseBase, parseBaseGo_plain b hm RE.eps none]
  rfl

/-! ### `findSome?` helpers -/

theorem findSome?_isSome_iff {α β : Type} (f : α → Option β) (l : List α) :
    (l.findSome? f).isSome = true ↔ ∃ a ∈ l, (f a).isSome = true := by
  induction l with
  | nil => simp [List.findSome?]
  | cons x xs ih =>
    rw [List.findSome?_cons]
    cases hx : f x with
    | none => simp [ih, hx]
    | some v => simp [hx]

theorem findSome?_eq_some_of_unique {α β : Type} {f : α → Option β}
    {l : List α} {a : α} {v : β} (hmem : a ∈ l) (ha : f a = some v)
    (huniq : ∀ x ∈ l, x ≠ a → f x = none) : l.findSome? f = some v := by
  induction l with
  | nil => cases hmem
  | cons x xs ih =>
    rw [List.findSome?_cons]
    by_cases hx : x = a
    · subst hx
      rw [ha]
    · rw [huniq x (List.mem_cons_self x xs) hx]
      exact ih (by
        rcases List.mem_cons.mp hmem with h | h
        · exact absurd h.symm hx
        · exact h)
        (fun y hy hne => huniq y (List.mem_cons_of_mem x hy) hne)

/-! ### The archive pattern on literal base names -/

theorem suffixDigits_self (c : Bool) (ds : Name) (h1 : ds.isEmpty = false)
    (h2 : ds.all isDigitCh = true) :
    suffixDigits c ('.' :: (ds ++ (if c then nm ".gz" else []))) = some ds := by
  cases c with
  | false =>
    show suffixDigits false ('.' :: (ds ++ [])) = some ds
    rw [List.append_nil]
    simp [suffixDigits, h1, h2]
  | true =>
    show suffixDigits true ('.' :: (ds ++ nm ".gz")) = some ds
    have hgz : (nm ".gz").length = 3 := rfl
    have hlen : (ds ++ nm ".gz").length - 3 = ds.length := by
      rw [List.length_append, hgz]
      omega
    simp only [suffixDigits, if_pos rfl, if_pos (Eq.refl true), hlen]
    rw [List.take_left, List.drop_left]
    simp [h1, h2]

theorem spec_matches_true_iff (c : Bool) (b n : Name) :
    spec_matches c b n = true ↔
      n.take b.length = b ∧
        (suffixDigits c (n.drop b.length)).isSome = true := by
  rw [spec_matches]
  simp

theorem matchArchive_litFold_isSome (b : Name) (c : Bool) (n : Name) :
    (matchArchive (litFold b) c n).isSome = spec_matches c b n := by
  have H : (matchArchive (litFold b) c n).isSome = true ↔
      spec_matches c b n = true := by
    rw [matchArchive, findSome?_isSome_iff, spec_matches_true_iff]
    constructor
    · rintro ⟨i, hi, hsome⟩
      have hile : i ≤ n.length := by
        have h := List.mem_range.mp (List.mem_reverse.mp hi)
        omega
      by_cases hm : reMatchL (litFold b) (n.take i) = true
      · rw [if_pos hm] at hsome
        have htake : n.take i = b := (reMatchL_litFold b _).mp hm
        have hib : i = b.length := by
          have hl : (n.take i).length = i := by
            rw [List.length_take]; omega
          rw [htake] at hl; omega
        subst hib
        exact ⟨htake, hsome⟩
      · rw [if_neg hm] at hsome
        simp at hsome
    · rintro ⟨htake, hsuf⟩
      have hble : b.length ≤ n.length := by
        have hl : (n.take b.length).length = min b.length n.length :=
          List.length_take b.length n
        rw [htake] at hl; omega
      refine ⟨b.length, ?_, ?_⟩
      · exact List.mem_reverse.mpr (List.mem_range.mpr (by omega))
      · rw [if_pos ((reMatchL_litFold b _).mpr htake)]
        exact hsuf
  cases hs : spec_matches c b n with
  | true => exact H.mpr hs
  | false =>
    cases hm : (matchArchive (litFold b) c n).isSome with
    | false => rfl
    | true => exact absurd (H.mp hm) (by simp [hs])

theorem matchArchive_litFold_self (b : Name) (c : Bool) (ds : Name)
    (h1 : ds.isEmpty = false) (h2 : ds.all isDigitCh = true) :
    matchArchive (litFold b) c
      (b ++ '.' :: (ds ++ (if c then nm ".gz" else []))) = some ds := by
  set n := b ++ '.' :: (ds ++ (if c then nm ".gz" else [])) with hn
  have hlen : b.length + 1 ≤ n.length := by
    rw [hn, List.length_append]
    simp
  apply findSome?_eq_some_of_unique (a := b.length)
  · exact List.mem_reverse.mpr (List.mem_range.mpr (by omega))
  · have htake : n.take b.length = b := by
      rw [hn]; exact List.take_left b _
    have hdrop : n.drop b.length = '.' :: (ds ++ (if c then nm ".gz" else [])) := by
      rw [hn]; exact List.drop_left b _
    rw [if_pos ((reMatchL_litFold b _).mpr htake), hdrop]
    exact suffixDigits_self c ds h1 h2
  · intro x hx hne
    have hxle : x ≤ n.length := by
      have h := List.mem_range.mp (List.mem_reverse.mp hx)
      omega
    cases hr : reMatchL (litFold b) (n.take x) with
    | false => rw [if_neg (by simp [hr])]
    | true =>
      exfalso
      have htake : n.take x = b := (reMatchL_litFold b _).mp hr
      have hl : (n.take x).length = x := by
        rw [List.length_take]; omega
      rw [htake] at hl
      exact hne (hl.symm ▸ rfl)

/-! ### Decimal rendering and `i32` parsing -/

theorem digitChar_digit (d : Nat) : isDigitCh (digitChar d) = true := by
  unfold digitChar
  split <;> decide

theorem digitChar_toNat (d : Nat) (h : d < 10) : (digitChar d).toNat = 48 + d := by
  interval_cases d <;> decide

theorem natDigitsAux_ne_nil (fuel n : Nat) (h : fuel ≠ 0) :
    (natDigitsAux fuel n).isEmpty = false := by
  cases fuel with
  | zero => contradiction
  | succ f =>
    rw [natDigitsAux]
    by_cases h10 : n < 10
    · rw [if_pos h10]; rfl
    · rw [if_neg h10]
      simp

theorem natDigitsAux_all (fuel : Nat) :
    ∀ n, (natDigitsAux fuel n).all isDigitCh = true := by
  induction fuel with
  | zero => intro n; rfl
  | succ f ih =>
    intro n
    rw [natDigitsAux]
    by_cases h10 : n < 10
    · rw [if_pos h10]
      simp [digitChar_digit]
    · rw [if_neg h10]
      simp [List.all_append, ih (n / 10), digitChar_digit]

theorem digitsToNat_append_digit (l : Name) (c : Char) :
    digitsToNat (l ++ [c]) = 10 * digitsToNat l + (c.toNat - 48) := by
  simp [digitsToNat, List.foldl_append]

theorem digitsToNat_natDigitsAux (fuel : Nat) :
    ∀ n, n < fuel → digitsToNat (natDigitsAux fuel n) = n := by
  induction fuel with
  | zero => intro n h; omega
  | succ f ih =>
    intro n h
    rw [natDigitsAux]
    by_cases h10 : n < 10
    · rw [if_pos h10]
      have := digitChar_toNat n h10
      simp [digitsToNat, this]
    · rw [if_neg h10, digitsToNat_append_digit]
      rw [ih (n / 10) (by omega)]
      have := digitChar_toNat (n % 10) (by omega)
      omega

theorem parseI32_natDigits (k : Nat) (h : k ≤ 2147483647) :
    parseI32 (natDigits k) = some ((k : Nat) : Int) := by
  have h1 := natDigitsAux_ne_nil (k + 1) k (by omega)
  have h2 := natDigitsAux_all (k + 1) k
  have h3 : digitsToNat (natDigits k) = k :=
    digitsToNat_natDigitsAux (k + 1) k (by omega)
  rw [natDigits] at h3
  simp [parseI32, natDigits, h1, h2, h3, h]

theorem intDigits_of_nonneg (n : Int) (h : 0 ≤ n) :
    intDigits n = natDigits n.toNat := by
  rw [intDigits, if_neg (by omega)]

theorem wrap32_eq_self (n : Int) (h1 : -2147483648 ≤ n)
    (h2 : n ≤ 2147483647) : wrap32 n = n := by
  unfold wrap32
  omega

/-! ### The scan loop of `next_file` -/

theorem scanGo_ok (re : RE) (c : Bool) :
    ∀ (l : List Name) (acc : List (Int × Name)) (m : Int)
      (pairs : List (Int × Name)) (mo : Int),
      scanGo re c acc m l = .ok (pairs, mo) →
      pairs = acc ++
          l.filterMap (fun n => (digitOfName re c n).map (fun d => (d, n))) ∧
        mo = l.foldl (maxStep re c) m ∧
        ∀ n ∈ l, ∀ ds, matchArchive re c n = some ds →
          (parseI32 ds).isSome = true := by
  intro l
  induction l with
  | nil =>
    intro acc m pairs mo h
    rw [scanGo] at h
    obtain ⟨rfl, rfl⟩ : acc = pairs ∧ m = mo := by
      simpa using h
    simp
  | cons n rest ih =>
    intro acc m pairs mo h
    cases hm : matchArchive re c n with
    | none =>
      simp only [scanGo, hm] at h
      obtain ⟨h1, h2, h3⟩ := ih acc m pairs mo h
      refine ⟨?_, ?_, ?_⟩
      · rw [h1]
        simp [List.filterMap_cons, digitOfName, hm]
      · rw [h2]
        simp [List.foldl_cons, maxStep, digitOfName, hm]
      · intro x hx ds hds
        rcases List.mem_cons.mp hx with rfl | hx'
        · rw [hm] at hds; cases hds
        · exact h3 x hx' ds hds
    | some ds =>
      cases hp : parseI32 ds with
      | none =>
        simp [scanGo, hm, hp] at h
      | some d =>
        simp only [scanGo, hm, hp] at h
        obtain ⟨h1, h2, h3⟩ := ih _ _ pairs mo h
        refine ⟨?_, ?_, ?_⟩
        · rw [h1]
          simp [List.filterMap_cons, digitOfName, hm, hp]
        · rw [h2]
          simp [List.foldl_cons, maxStep, digitOfName, hm, hp]
        · intro x hx ds' hds'
          rcases List.mem_cons.mp hx with rfl | hx'
          · rw [hm] at hds'
            obtain rfl : ds = ds' := by simpa using hds'
            simp [hp]
          · exact h3 x hx' ds' hds'

theorem scanGo_total (re : RE) (c : Bool) :
    ∀ (l : List Name) (acc : List (Int × Name)) (m : Int),
      (∀ n ∈ l, ∀ ds, matchArchive re c n = some ds →
        (parseI32 ds).isSome = true) →
      ∃ pairs mo, scanGo re c acc m l = .ok (pairs, mo) := by
  intro l
  induction l with
  | nil => intro acc m _; exact ⟨acc, m, rfl⟩
  | cons n rest ih =>
    intro acc m hall
    cases hm : matchArchive re c n with
    | none =>
      simp only [scanGo, hm]
      exact ih acc m (fun x hx => hall x (List.mem_cons_of_mem n hx))
    | some ds =>
      have hsome := hall n (List.mem_cons_self n rest) ds hm
      obtain ⟨d, hd⟩ := Option.isSome_iff_exists.mp hsome
      simp only [scanGo, hm, hd]
      exact ih _ _ (fun x hx => hall x (List.mem_cons_of_mem n hx))

/-! ### Stable sort by archive number -/

theorem insertByDigit_perm (x : Int × Name) (l : List (Int × Name)) :
    List.Perm (insertByDigit x l) (x :: l) := by
  induction l with
  | nil => exact List.Perm.refl _
  | cons y ys ih =>
    rw [insertByDigit]
    by_cases h : x.1 < y.1
    · rw [if_pos h]
    · rw [if_neg h]
      exact (ih.cons y).trans (List.Perm.swap x y ys)

theorem sortByDigit_perm (l : List (Int × Name)) :
    List.Perm (sortByDigit l) l := by
  induction l with
  | nil => exact List.Perm.refl _
  | cons x xs ih =>
    rw [sortByDigit]
    exact (insertByDigit_perm x (sortByDigit xs)).trans (ih.cons x)

/-! ### Deleting a list of names from the directory -/

theorem foldl_erase_sublist :
    ∀ (names dir : List Name),
      List.Sublist (names.foldl (fun d n => d.erase n) dir) dir := by
  intro names
  induction names with
  | nil => intro dir; exact List.Sublist.refl dir
  | cons n ns ih =>
    intro dir
    rw [List.foldl_cons]
    exact (ih (dir.erase n)).trans (List.erase_sublist n dir)

theorem countP_erase_of_mem (p : Name → Bool) :
    ∀ (dir : List Name), dir.Nodup → ∀ n ∈ dir, p n = true →
      (dir.erase n).countP p + 1 = dir.countP p := by
  intro dir
  induction dir with
  | nil => intro _ n hn; cases hn
  | cons d ds ih =>
    intro hnd n hn hp
    by_cases hdn : d = n
    · subst hdn
      rw [List.erase_cons_head]
      simp [List.countP_cons, hp]
    · have hn' : n ∈ ds := by
        rcases List.mem_cons.mp hn with h | h
        · exact absurd h.symm hdn
        · exact h
      rw [List.erase_cons_tail]
      · rw [List.countP_cons, List.countP_cons,
          ← ih (List.nodup_cons.mp hnd).2 n hn' hp]
        omega
      · simp [hdn]

theorem countP_foldl_erase (p : Name → Bool) :
    ∀ (names dir : List Name), names.Nodup → dir.Nodup →
      (∀ n ∈ names, n ∈ dir ∧ p n = true) →
      (names.foldl (fun d n => d.erase n) dir).countP p =
        dir.countP p - names.length := by
  intro names
  induction names with
  | nil => intro dir _ _ _; simp
  | cons n ns ih =>
    intro dir hns hdir hall
    rw [List.foldl_cons]
    have hmem := (hall n (List.mem_cons_self n ns)).1
    have hp := (hall n (List.mem_cons_self n ns)).2
    have herase := countP_erase_of_mem p dir hdir n hmem hp
    have hall' : ∀ x ∈ ns, x ∈ dir.erase n ∧ p x = true := by
      intro x hx
      have hxd := hall x (List.mem_cons_of_mem n hx)
      have hxn : x ≠ n := by
        rintro rfl
        exact (List.nodup_cons.mp hns).1 hx
      exact ⟨(List.mem_erase_of_ne hxn).mpr hxd.1, hxd.2⟩
    rw [ih (dir.erase n) (List.nodup_cons.mp hns).2 (hdir.erase n) hall']
    rw [List.length_cons]
    omega

/-! ### The running maximum of `next_file` -/

theorem le_foldl_maxStep (re : RE) (c : Bool) :
    ∀ (l : List Name) (m : Int), m ≤ l.foldl (maxStep re c) m := by
  intro l
  induction l with
  | nil => intro m; simp
  | cons n ns ih =>
    intro m
    rw [List.foldl_cons]
    refine le_trans ?_ (ih (maxStep re c m n))
    cases h : digitOfName re c n with
    | none => simp [maxStep, h]
    | some d =>
      simp only [maxStep, h]
      split <;> omega

theorem le_foldl_maxStep_of_mem (re : RE) (c : Bool) {n : Name} {d : Int} :
    ∀ (l : List Name) (m : Int), n ∈ l → digitOfName re c n = some d →
      d ≤ l.foldl (maxStep re c) m := by
  intro l
  induction l with
  | nil => intro m h; cases h
  | cons x xs ih =>
    intro m hmem hd
    rw [List.foldl_cons]
    rcases List.mem_cons.mp hmem with rfl | hmem'
    · refine le_trans ?_ (le_foldl_maxStep re c xs _)
      simp only [maxStep, hd]
      split <;> omega
    · exact ih _ hmem' hd

theorem foldl_maxStep_le (re : RE) (c : Bool) (K : Int) :
    ∀ (l : List Name) (m : Int), m ≤ K →
      (∀ n ∈ l, ∀ d, digitOfName re c n = some d → d ≤ K) →
      l.foldl (maxStep re c) m ≤ K := by
  intro l
  induction l with
  | nil => intro m h _; simpa
  | cons x xs ih =>
    intro m hm hall
    rw [List.foldl_cons]
    refine ih _ ?_ (fun n hn d hd => hall n (List.mem_cons_of_mem x hn) d hd)
    cases h : digitOfName re c x with
    | none => simpa [maxStep, h] using hm
    | some d =>
      have := hall x (List.mem_cons_self x xs) d h
      simp only [maxStep, h]
      split <;> omega

theorem maxDigitsOf_nonneg (c : Bool) (b : Name) (dir : List Name) :
    0 ≤ maxDigitsOf c b dir := by
  rw [maxDigitsOf.eq_def]
  split
  · exact le_refl 0
  · exact le_foldl_maxStep _ _ _ _

/-! ### Characterisation of a successful `next_file` -/

theorem parentPath_of_fileName {p : RPath} {b : Name}
    (h : fileName p = some b) : ∃ q, parentPath p = some q := by
  rw [fileName] at h
  cases hc : p.comps with
  | nil =>
    rw [hc] at h
    simp [List.getLast?] at h
  | cons x xs =>
    exact ⟨⟨p.abs, (x :: xs).dropLast⟩, by rw [parentPath, hc]⟩

theorem next_file_ok {c : Bool} {p : RPath} {rd : Option Name}
    {names : List Name} {rr : RotationResult} {b : Name}
    (hb : fileName p = some b) (h : next_file c p rd (some names) = .ok rr) :
    ∃ re pairs,
      parseBase b = some re ∧
      scanGo re c [] 0 names = .ok (pairs, names.foldl (maxStep re c) 0) ∧
      rr.existing_rotated = (sortByDigit pairs).map (·.2) ∧
      rr.next_rotation =
        archive_name c b (wrap32 (names.foldl (maxStep re c) 0 + 1)) := by
  obtain ⟨q, hq⟩ := parentPath_of_fileName hb
  cases hpb : parseBase b with
  | none => simp [next_file, hq, hb, hpb] at h
  | some re =>
    cases hs : scanGo re c [] 0 names with
    | panic => simp [next_file, hq, hb, hpb, hs] at h
    | err e => simp [next_file, hq, hb, hpb, hs] at h
    | ok pr =>
      obtain ⟨pairs, maximum⟩ := pr
      obtain ⟨h1, h2, h3⟩ := scanGo_ok re c names [] 0 pairs maximum hs
      simp only [next_file, hq, hb, hpb, hs] at h
      obtain rfl : rr = ⟨(sortByDigit pairs).map (·.2),
          archive_name c b (wrap32 (maximum + 1))⟩ := by
        cases h
        rfl
      rw [h2] at hs
      exact ⟨re, pairs, rfl, hs, rfl, by rw [h2]⟩

theorem filterMap_digit_map_snd (re : RE) (c : Bool) :
    ∀ l : List Name,
      (∀ n ∈ l, ∀ ds, matchArchive re c n = some ds →
        (parseI32 ds).isSome = true) →
      (l.filterMap (fun n => (digitOfName re c n).map (fun d => (d, n)))).map
          (·.2) =
        l.filter (fun n => (matchArchive re c n).isSome) := by
  intro l
  induction l with
  | nil => intro _; rfl
  | cons n rest ih =>
    intro hall
    have htail := ih (fun x hx => hall x (List.mem_cons_of_mem n hx))
    cases hm : matchArchive re c n with
    | none =>
      have hdig : digitOfName re c n = none := by
        rw [digitOfName, hm]
        rfl
      simp [List.filterMap_cons, List.filter_cons, hdig, hm, htail]
    | some ds =>
      have hsome := hall n (List.mem_cons_self n rest) ds hm
      obtain ⟨d, hd⟩ := Option.isSome_iff_exists.mp hsome
      have hdig : digitOfName re c n = some d := by
        rw [digitOfName, hm]
        exact hd
      simp [List.filterMap_cons, List.filter_cons, hdig, hm, htail]

theorem cleanup_sublist (k : Nat) (rr : RotationResult) (dir : List Name) :
    List.Sublist (cleanup_rotations k rr dir) dir := by
  rw [cleanup_rotations]
  split
  · exact foldl_erase_sublist _ _
  · exact List.Sublist.refl _

theorem countP_cleanup_eq_min (rr : RotationResult) (dir : List Name)
    (k : Nat) (q : Name → Bool)
    (hperm : List.Perm rr.existing_rotated (dir.filter q))
    (hnd : dir.Nodup) :
    (cleanup_rotations k rr dir).countP q = min (dir.countP q) k := by
  have hE : rr.existing_rotated.length = dir.countP q := by
    rw [hperm.length_eq, List.countP_eq_length_filter]
  rw [cleanup_rotations]
  by_cases hgt : rr.existing_rotated.length > k
  · rw [if_pos hgt]
    have hnodup_ex : rr.existing_rotated.Nodup :=
      hperm.nodup_iff.mpr (hnd.filter q)
    have hnames_nodup :
        (rr.existing_rotated.take (rr.existing_rotated.length - k)).Nodup :=
      hnodup_ex.sublist (List.take_sublist _ _)
    have hmem : ∀ n ∈ rr.existing_rotated.take
        (rr.existing_rotated.length - k), n ∈ dir ∧ q n = true := by
      intro n hn
      have hex : n ∈ rr.existing_rotated :=
        List.take_subset _ _ hn
      have hfil := hperm.mem_iff.mp hex
      exact ⟨(List.mem_filter.mp hfil).1, (List.mem_filter.mp hfil).2⟩
    rw [countP_foldl_erase q _ dir hnames_nodup hnd hmem]
    rw [List.length_take]
    omega
  · rw [if_neg hgt]
    omega

theorem perform_rotation_ok {st : FState} {mh ms : Nat} {c : Bool}
    {p : RPath} {rd : Option Name} {st' : FState}
    (h : perform_rotation st mh ms c p rd = .ok (st', true)) :
    ms < st.pos ∧ ∃ rr, next_file c p rd (some st.dir) = .ok rr ∧
      ((mh = 0 ∧ st'.pos = 0 ∧ st'.len = 0 ∧
          st'.dir = cleanup_rotations 0 rr st.dir) ∨
       (1 ≤ mh ∧ st'.pos = 0 ∧ st'.len = 0 ∧
          st'.dir =
            (if rr.next_rotation ∈ cleanup_rotations (mh - 1) rr st.dir
             then cleanup_rotations (mh - 1) rr st.dir
             else cleanup_rotations (mh - 1) rr st.dir ++
               [rr.next_rotation]))) := by
  by_cases hpos : st.pos ≤ ms
  · simp [perform_rotation, hpos] at h
  · refine ⟨by omega, ?_⟩
    cases hnf : next_file c p rd (some st.dir) with
    | panic => simp [perform_rotation, hpos, hnf] at h
    | err e => simp [perform_rotation, hpos, hnf] at h
    | ok rr =>
      refine ⟨rr, rfl, ?_⟩
      by_cases hmh : mh = 0
      · subst hmh
        simp only [perform_rotation, if_neg hpos, hnf, if_pos rfl, if_true,
          if_false] at h
        simp only [RRes.ok.injEq, Prod.mk.injEq, and_true] at h
        left
        exact ⟨rfl, by rw [← h], by rw [← h], by rw [← h]⟩
      · simp only [perform_rotation, if_neg hpos, hnf, if_neg hmh, if_true,
          if_false] at h
        simp only [RRes.ok.injEq, Prod.mk.injEq, and_true] at h
        right
        exact ⟨by omega, by rw [← h], by rw [← h], by rw [← h]⟩

theorem next_file_ok_perm {c : Bool} {p : RPath} {rd : Option Name}
    {names : List Name} {rr : RotationResult} {b : Name}
    (hb : fileName p = some b) (h : next_file c p rd (some names) = .ok rr) :
    ∃ re, parseBase b = some re ∧
      List.Perm rr.existing_rotated
        (names.filter (fun n => (matchArchive re c n).isSome)) ∧
      rr.next_rotation =
        archive_name c b (wrap32 (names.foldl (maxStep re c) 0 + 1)) := by
  obtain ⟨re, pairs, hpb, hscan, hex, hnext⟩ := next_file_ok hb h
  obtain ⟨h1, -, h3⟩ := scanGo_ok re c names [] 0 pairs _ hscan
  rw [List.nil_append] at h1
  refine ⟨re, hpb, ?_, hnext⟩
  rw [hex, h1]
  have hmap := filterMap_digit_map_snd re c names h3
  have hp := (sortByDigit_perm (names.filterMap
      (fun n => (digitOfName re c n).map (fun d => (d, n))))).map (·.2)
  rw [hmap] at hp
  exact hp

/-! ## The claims -/

/-- C2: the rotation check is an early no-op exactly when the post-append
write position is at most `max_size` (the state is then returned unchanged and
the rotation branch, recorded by the `true` flag, is not taken); whenever the
rotation branch runs, the position strictly exceeds `max_size`. -/
theorem rotation_iff_threshold (st : FState) (mh ms : Nat) (c : Bool)
    (p : RPath) (rd : Option Name) :
    (perform_rotation st mh ms c p rd = .ok (st, false) ↔ st.pos ≤ ms) ∧
    ∀ st', perform_rotation st mh ms c p rd = .ok (st', true) →
      ms < st.pos := by
  constructor
  · constructor
    · intro h
      by_contra hpos
      simp only [perform_rotation, if_neg hpos] at h
      cases hnf : next_file c p rd (some st.dir) with
      | panic => simp [hnf] at h
      | err e => simp [hnf] at h
      | ok rr =>
        simp only [hnf] at h
        split at h <;> simp at h
    · intro hpos
      rw [perform_rotation, if_pos hpos]
  · intro st' h
    exact (perform_rotation_ok h).1

/-- Witness for C2 at a concrete state below the threshold. -/
theorem rotation_iff_threshold_witness :
    perform_rotation ⟨5, 5, []⟩ 3 8 false ⟨false, [PComp.normal (nm "o")]⟩
      none = RRes.ok (⟨5, 5, []⟩, false) :=
  (rotation_iff_threshold ⟨5, 5, []⟩ 3 8 false
    ⟨false, [PComp.normal (nm "o")]⟩ none).1.mpr (by decide)

/-- C3: after every successfully completed rotation the rotation directory
holds at most `max_history` entries matching the archive pattern: for
`max_history = 0` the cleanup removes all of them, otherwise cleanup keeps
`max_history - 1` and the newly created archive brings the total to at most
`max_history`. -/
theorem retention_bound (st st' : FState) (mh ms : Nat) (c : Bool)
    (p : RPath) (rd : Option Name) (b : Name) (hb : fileName p = some b)
    (hnd : st.dir.Nodup)
    (h : perform_rotation st mh ms c p rd = .ok (st', true)) :
    countArchives c b st'.dir ≤ mh := by
  obtain ⟨-, rr, hnf, hbr⟩ := perform_rotation_ok h
  obtain ⟨re, hpb, hperm, -⟩ := next_file_ok_perm hb hnf
  have hcount : countArchives c b st'.dir =
      st'.dir.countP (fun n => (matchArchive re c n).isSome) := by
    simp only [countArchives, hpb]
  rcases hbr with ⟨hmh0, -, -, hdir⟩ | ⟨hmh1, -, -, hdir⟩
  · subst hmh0
    rw [hcount, hdir, countP_cleanup_eq_min rr st.dir 0 _ hperm hnd]
    omega
  · rw [hcount, hdir]
    have hmin := countP_cleanup_eq_min rr st.dir (mh - 1) _ hperm hnd
    split
    · rw [hmin]
      omega
    · rw [List.countP_append, hmin, List.countP_cons, List.countP_nil]
      split <;> omega

/-- Witness for C3: a concrete rotation with three existing archives and
`max_history = 2` ends with two archives in the directory. -/
theorem retention_bound_witness :
    perform_rotation ⟨9, 9, [nm "o.1", nm "o.2", nm "o.3"]⟩ 2 8 false
        ⟨false, [PComp.normal (nm "o")]⟩ none
      = RRes.ok (⟨0, 0, [nm "o.3", nm "o.4"]⟩, true) ∧
    countArchives false (nm "o") [nm "o.3", nm "o.4"] ≤ 2 :=
  ⟨by decide,
   retention_bound ⟨9, 9, [nm "o.1", nm "o.2", nm "o.3"]⟩
     ⟨0, 0, [nm "o.3", nm "o.4"]⟩ 2 8 false
     ⟨false, [PComp.normal (nm "o")]⟩ none (nm "o") (by decide) (by decide)
     (by decide)⟩

/-- C5: a rotation with `max_history = 0` deletes every entry matching the
archive pattern, leaves the live file with length zero and its handle at the
start, and creates no archive (the directory only loses entries). -/
theorem zero_retention (st st' : FState) (ms : Nat) (c : Bool) (p : RPath)
    (rd : Option Name) (b : Name) (hb : fileName p = some b)
    (hnd : st.dir.Nodup)
    (h : perform_rotation st 0 ms c p rd = .ok (st', true)) :
    countArchives c b st'.dir = 0 ∧ st'.len = 0 ∧ st'.pos = 0 ∧
      List.Sublist st'.dir st.dir := by
  obtain ⟨-, rr, hnf, hbr⟩ := perform_rotation_ok h
  rcases hbr with ⟨-, hpos0, hlen0, hdir⟩ | ⟨hge, -, -, -⟩
  · obtain ⟨re, hpb, hperm, -⟩ := next_file_ok_perm hb hnf
    refine ⟨?_, hlen0, hpos0, ?_⟩
    · simp only [countArchives, hpb]
      rw [hdir, countP_cleanup_eq_min rr st.dir 0 _ hperm hnd]
      omega
    · rw [hdir]
      exact cleanup_sublist 0 rr st.dir
  · exact absurd hge (by omega)

/-- Witness for C5: one existing archive, `max_history = 0`: the rotation
empties the directory and the live file. -/
theorem zero_retention_witness :
    perform_rotation ⟨9, 9, [nm "o.1"]⟩ 0 8 false
        ⟨false, [PComp.normal (nm "o")]⟩ none
      = RRes.ok (⟨0, 0, []⟩, true) ∧
    (countArchives false (nm "o") [] = 0 ∧ (0 : Nat) = 0 ∧ (0 : Nat) = 0 ∧
      List.Sublist ([] : List Name) [nm "o.1"]) :=
  ⟨by decide,
   zero_retention ⟨9, 9, [nm "o.1"]⟩ ⟨0, 0, []⟩ 8 false
     ⟨false, [PComp.normal (nm "o")]⟩ none (nm "o") (by decide) (by decide)
     (by decide)⟩


theorem maxStep_of_digit (re : RE) (c : Bool) (m : Int) (n : Name)
    (d : Int) (h : digitOfName re c n = some d) :
    maxStep re c m n = if m ≤ d then d else m := by
  simp only [maxStep, h]

theorem foldl_maxStep_insert (re : RE) (c : Bool) (dir' : List Name)
    (next : Name) (M : Int) (hM0 : 0 ≤ M)
    (hbound : ∀ n ∈ dir', ∀ d, digitOfName re c n = some d → d ≤ M)
    (hdigN : digitOfName re c next = some (M + 1)) :
    (dir' ++ [next]).foldl (maxStep re c) 0 = M + 1 := by
  rw [List.foldl_append, List.foldl_cons, List.foldl_nil]
  have hle := foldl_maxStep_le re c M dir' 0 hM0 hbound
  rw [maxStep_of_digit re c _ next (M + 1) hdigN]
  split <;> omega

/-- Fidelity of the planner at the `i32` boundary: when the directory holds
an archive numbered `i32::MAX = 2147483647`, the source's `maximum + 1`
overflows; in a release build it wraps, so the planned name carries the
wrapped number `-2147483648` (a debug build would panic at the same spot).
The model never invents the unbounded number 2147483648. -/
theorem next_file_wraps_at_i32_max :
    next_file false ⟨false, [PComp.normal (nm "b")]⟩ none
        (some [nm "b.2147483647"]) =
      RRes.ok ⟨[nm "b.2147483647"], nm "b.-2147483648"⟩ := by
  decide

/-- C4 (amended): the archive number is fixed before retention pruning as
`maximum + 1` in `i32` arithmetic over the numbers of the entries matching
the pattern at planning time (`maxDigitsOf` is 0 when none match, so
numbering starts at 1).  Whenever that maximum is below
`i32::MAX = 2147483647` the planned number is exactly `maximum + 1`; at
`i32::MAX` the `i32` increment overflows and wraps (see
`next_file_wraps_at_i32_max`).  The monotonicity half of the claim holds
only for base names free of pattern syntax and below that boundary: then
every further successful rotation with `max_history ≥ 1` raises the
directory's largest matching number by exactly one, so consecutive rotations
create numbers `N`, `N+1`, ... and never reuse one.  For a base name
containing pattern syntax the created archive does not match the pattern
that planned it, and the very next rotation reuses the same number (see the
counterexample). -/
theorem archive_numbering (c : Bool) (p : RPath) (rd : Option Name)
    (b : Name) (hb : fileName p = some b) :
    (∀ names rr, next_file c p rd (some names) = .ok rr →
       rr.next_rotation =
         archive_name c b (wrap32 (maxDigitsOf c b names + 1))) ∧
    (∀ names rr, next_file c p rd (some names) = .ok rr →
       maxDigitsOf c b names < 2147483647 →
       rr.next_rotation = archive_name c b (maxDigitsOf c b names + 1)) ∧
    (plain b = true → ∀ st st' mh ms,
       st.dir.Nodup → 1 ≤ mh →
       maxDigitsOf c b st.dir < 2147483647 →
       perform_rotation st mh ms c p rd = .ok (st', true) →
       maxDigitsOf c b st'.dir = maxDigitsOf c b st.dir + 1) := by
  have hplan : ∀ names rr, next_file c p rd (some names) = .ok rr →
      rr.next_rotation =
        archive_name c b (wrap32 (maxDigitsOf c b names + 1)) := by
    intro names rr hnf
    obtain ⟨re, hpb, -, hnext⟩ := next_file_ok_perm hb hnf
    rw [hnext]
    simp only [maxDigitsOf, hpb]
  refine ⟨hplan, ?_, ?_⟩
  · intro names rr hnf hlt
    have h0 := maxDigitsOf_nonneg c b names
    rw [hplan names rr hnf,
      wrap32_eq_self (maxDigitsOf c b names + 1) (by omega) (by omega)]
  · intro hplain st st' mh ms hnd hmh hfit h
    obtain ⟨-, rr, hnf, hbr⟩ := perform_rotation_ok h
    rcases hbr with ⟨h0, -⟩ | ⟨-, -, -, hdir⟩
    · exact absurd h0 (by omega)
    obtain ⟨re, pairs, hpb, hscan, hex, hnext⟩ := next_file_ok hb hnf
    have hre : re = litFold b := by
      have hlit := parseBase_plain b hplain
      rw [hlit] at hpb
      exact (Option.some.inj hpb).symm
    subst hre
    have hMdef : maxDigitsOf c b st.dir =
        st.dir.foldl (maxStep (litFold b) c) 0 := by
      simp only [maxDigitsOf, hpb]
    rw [hMdef] at hfit
    have hM0 : (0 : Int) ≤ st.dir.foldl (maxStep (litFold b) c) 0 :=
      le_foldl_maxStep (litFold b) c st.dir 0
    rw [wrap32_eq_self (st.dir.foldl (maxStep (litFold b) c) 0 + 1)
      (by omega) (by omega)] at hnext
    have hds1 : (natDigits (st.dir.foldl (maxStep (litFold b) c) 0 +
        1).toNat).isEmpty = false :=
      natDigitsAux_ne_nil _ _ (by omega)
    have hds2 := natDigitsAux_all
      ((st.dir.foldl (maxStep (litFold b) c) 0 + 1).toNat + 1)
      (st.dir.foldl (maxStep (litFold b) c) 0 + 1).toNat
    have hmatch : matchArchive (litFold b) c
        (archive_name c b (st.dir.foldl (maxStep (litFold b) c) 0 + 1)) =
        some (natDigits (st.dir.foldl (maxStep (litFold b) c) 0 +
          1).toNat) := by
      rw [archive_name, intDigits_of_nonneg _ (by omega)]
      exact matchArchive_litFold_self b c _ hds1 hds2
    have hdigN : digitOfName (litFold b) c rr.next_rotation =
        some (st.dir.foldl (maxStep (litFold b) c) 0 + 1) := by
      rw [hnext, digitOfName, hmatch, Option.some_bind,
        parseI32_natDigits _ (by omega)]
      congr 1
      omega
    have hnotmem :
        rr.next_rotation ∉ cleanup_rotations (mh - 1) rr st.dir := by
      intro hmem
      have hmem' : rr.next_rotation ∈ st.dir :=
        (cleanup_sublist (mh - 1) rr st.dir).subset hmem
      have hle := le_foldl_maxStep_of_mem (litFold b) c st.dir 0 hmem' hdigN
      omega
    rw [hdir, if_neg hnotmem, hMdef]
    simp only [maxDigitsOf, hpb]
    refine foldl_maxStep_insert (litFold b) c _ rr.next_rotation _ hM0
      ?_ hdigN
    intro n hn d hd
    exact le_foldl_maxStep_of_mem (litFold b) c st.dir 0
      ((cleanup_sublist (mh - 1) rr st.dir).subset hn) hd

/-- Counterexample for C4 as frozen: with output file `a+b` (its name contains
the pattern metacharacter `+`, which `next_file` does not escape) the first
rotation creates archive `a+b.1`, and since `a+b.1` does not match the regex
built from `a+b`, the second rotation plans number 1 again: the created
numbers do not strictly increase and number 1 is reused. -/
theorem archive_number_reuse :
    perform_rotation ⟨9, 9, []⟩ 5 8 false
        ⟨false, [PComp.normal (nm "a+b")]⟩ none
      = RRes.ok (⟨0, 0, [nm "a+b.1"]⟩, true) ∧
    perform_rotation ⟨9, 9, [nm "a+b.1"]⟩ 5 8 false
        ⟨false, [PComp.normal (nm "a+b")]⟩ none
      = RRes.ok (⟨0, 0, [nm "a+b.1"]⟩, true) := by
  exact ⟨by decide, by decide⟩

/-- Witness for C4: concrete instances of the three conjuncts — below the
`i32` boundary the planner names archive number 2 after number 1, and a
rotation raises the directory's largest matching number from 1 to 2. -/
theorem archive_numbering_witness :
    (maxDigitsOf false (nm "o") [nm "o.1"] < 2147483647 ∧
      next_file false ⟨false, [PComp.normal (nm "o")]⟩ none
        (some [nm "o.1"]) = RRes.ok ⟨[nm "o.1"], nm "o.2"⟩) ∧
    nm "o.2" =
      archive_name false (nm "o") (maxDigitsOf false (nm "o") [nm "o.1"] + 1) ∧
    perform_rotation ⟨3, 3, [nm "o.1"]⟩ 2 0 false
        ⟨false, [PComp.normal (nm "o")]⟩ none
      = RRes.ok (⟨0, 0, [nm "o.1", nm "o.2"]⟩, true) ∧
    maxDigitsOf false (nm "o") [nm "o.1", nm "o.2"] =
      maxDigitsOf false (nm "o") [nm "o.1"] + 1 :=
  ⟨⟨by decide, by decide⟩,
   (archive_numbering false ⟨false, [PComp.normal (nm "o")]⟩ none (nm "o")
       (by decide)).2.1 [nm "o.1"] ⟨[nm "o.1"], nm "o.2"⟩ (by decide)
     (by decide),
   by decide,
   (archive_numbering false ⟨false, [PComp.normal (nm "o")]⟩ none (nm "o")
       (by decide)).2.2 (by decide) ⟨3, 3, [nm "o.1"]⟩
     ⟨0, 0, [nm "o.1", nm "o.2"]⟩ 2 0 (by decide) (by decide) (by decide)
     (by decide)⟩

/-- C1: the stdout relay calls `Stdout::write` and ignores the reported byte
count.  When the system accepts only part of a chunk — permitted by the
`io::Write` contract — the unwritten suffix is silently dropped and the chunk
is still acknowledged: on input chunk `[65, 66]` with one byte accepted,
standard output sees `[65]`, not the input.  The relay therefore does not
write every byte of each chunk it receives; the source's own help text
promises replication (`write_all`, as used in the file relay, was clearly
intended). -/
theorem stdout_relay_short_write_loses_bytes :
    start_stdout_writing (fun _ => 1) [[65, 66]] = [65] ∧
    start_stdout_writing (fun _ => 1) [[65, 66]] ≠ List.flatten [[65, 66]] := by
  decide

/-- When every write call accepts the whole buffer, the relay's output is the
concatenation of the chunks — the intended behaviour of the relay. -/
theorem stdout_writes_complete (k : Nat) :
    ∀ (chunks : List (List Nat)) (i : Nat), (∀ c ∈ chunks, c.length ≤ k) →
      stdout_writes (fun _ => k) i chunks = chunks.flatten := by
  intro chunks
  induction chunks with
  | nil => intro i _; rfl
  | cons c rest ih =>
    intro i hall
    have hc := hall c (List.mem_cons_self c rest)
    have hmin : min k c.length = c.length := by omega
    simp only [stdout_writes]
    rw [hmin, List.take_length,
      ih (i + 1) (fun x hx => hall x (List.mem_cons_of_mem c hx)),
      List.flatten_cons]

/-- C6: the trace of the ingest loop between consecutive chunks: chunk `k` is
read, sent to the stdout relay, sent to the file relay, then exactly two
acknowledgment receives occur, and only after them is chunk `k+1` read and
sent — chunk `k+1` is never issued to either relay before the two
acknowledgments for chunk `k` have been received. -/
theorem double_ack_barrier (cs : List (List Nat)) (k : Nat)
    (h : k + 1 < cs.length) :
    (read_cycle_trace cs).drop (5 * k) =
      Ev.read (cs.get ⟨k, by omega⟩) ::
      Ev.sendStdout (cs.get ⟨k, by omega⟩) ::
      Ev.sendFile (cs.get ⟨k, by omega⟩) ::
      Ev.recvAck :: Ev.recvAck ::
      Ev.read (cs.get ⟨k + 1, h⟩) ::
      Ev.sendStdout (cs.get ⟨k + 1, h⟩) ::
      Ev.sendFile (cs.get ⟨k + 1, h⟩) ::
      Ev.recvAck :: Ev.recvAck ::
      read_cycle_trace (cs.drop (k + 2)) := by
  induction k generalizing cs with
  | zero =>
    cases cs with
    | nil => simp at h
    | cons c0 cs1 =>
      cases cs1 with
      | nil => simp at h
      | cons c1 rest => simp [read_cycle_trace]
  | succ k ih =>
    cases cs with
    | nil => simp at h
    | cons c cs' =>
      have h' : k + 1 < cs'.length := by
        simp only [List.length_cons] at h
        omega
      have hstep := ih cs' h'
      simp only [read_cycle_trace, List.get_cons_succ, List.drop_succ_cons]
      rw [show 5 * (k + 1) = 5 + 5 * k from by ring, ← List.drop_drop]
      exact hstep

/-- Witness for C6 on the two-chunk input `[[1], [2]]`. -/
theorem double_ack_barrier_witness :
    (read_cycle_trace [[1], [2]]).drop (5 * 0) =
      Ev.read [1] :: Ev.sendStdout [1] :: Ev.sendFile [1] ::
      Ev.recvAck :: Ev.recvAck ::
      Ev.read [2] :: Ev.sendStdout [2] :: Ev.sendFile [2] ::
      Ev.recvAck :: Ev.recvAck ::
      read_cycle_trace ([[1], [2]].drop (0 + 2)) :=
  double_ack_barrier [[1], [2]] 0 (by decide)

/-- C7 (amended): when the ingest loop fails, `app` propagates that first
error immediately and performs no join — the `?` on `start_read_cycle`
returns before either `join` is reached; the two joins run only on the
success path, stdout first, then file. -/
theorem app_join_behaviour (e : String) (js jf : Except String Unit) :
    app (.ok ()) (.ok ()) (.ok ()) (.ok ()) (.error e) js jf =
      (.error e, [.configLogger, .planStartup, .cleanupStartup, .spawnStdout,
        .spawnFile, .readCycle]) ∧
    app (.ok ()) (.ok ()) (.ok ()) (.ok ()) (.ok ()) (.ok ()) (.ok ()) =
      (.ok (), [.configLogger, .planStartup, .cleanupStartup, .spawnStdout,
        .spawnFile, .readCycle, .joinStdout, .joinFile]) :=
  ⟨rfl, rfl⟩

/-- Counterexample for C7 as frozen: on an ingest-loop error the performed
steps contain no join at all — the claim requires both relay threads to be
joined even in that case, but `app` returns the error before either join. -/
theorem app_no_join_on_ingest_error :
    (app (.ok ()) (.ok ()) (.ok ()) (.ok ()) (.error "read failed") (.ok ())
        (.ok ())).1 = .error "read failed" ∧
    AppAct.joinStdout ∉ (app (.ok ()) (.ok ()) (.ok ()) (.ok ())
        (.error "read failed") (.ok ()) (.ok ())).2 ∧
    AppAct.joinFile ∉ (app (.ok ()) (.ok ()) (.ok ()) (.ok ())
        (.error "read failed") (.ok ()) (.ok ())).2 :=
  ⟨rfl, by decide, by decide⟩

/-- C8 (amended): with a listable rotation directory, an output path whose
file-name component does not resolve makes `next_file` panic — the source
calls `unwrap()` on `parent()`/`file_name()` — rather than return an error
value. -/
theorem planner_panics_without_file_name (c : Bool) (p : RPath)
    (rd : Option Name) (names : List Name) (hb : fileName p = none) :
    next_file c p rd (some names) = RRes.panic := by
  cases hq : parentPath p with
  | none => simp [next_file, hq]
  | some q => simp [next_file, hq, hb]

/-- Counterexample for C8 as frozen: for the output path `..` (no file-name
component) the planner's result is the `panic` outcome, not an `err` value
as the claim requires. -/
theorem planner_missing_name_panics :
    next_file false ⟨false, [PComp.parentDir]⟩ none (some []) =
      RRes.panic := by
  decide

/-- Witness for C8 at the concrete path `..` with compression on and a
non-empty listing. -/
theorem planner_missing_name_witness :
    fileName ⟨false, [PComp.parentDir]⟩ = none ∧
    next_file true ⟨false, [PComp.parentDir]⟩ none (some [nm "x"]) =
      RRes.panic :=
  ⟨by decide,
   planner_panics_without_file_name true ⟨false, [PComp.parentDir]⟩ none
     [nm "x"] (by decide)⟩

/-- C9 (amended): `next_file` splices the base name into its pattern without
escaping.  For base names free of pattern metacharacters the resulting
matcher coincides with the literal matcher the spec describes — the base
name, a dot, one or more digits, and `.gz` exactly when compression is
enabled; all other entries are ignored.  For base names containing
metacharacters the two matchers differ (see the counterexample). -/
theorem matcher_literal_on_plain (c : Bool) (b n : Name)
    (h : plain b = true) : code_matches c b n = spec_matches c b n := by
  simp only [code_matches, parseBase_plain b h]
  exact matchArchive_litFold_isSome b c n

/-- Counterexample for C9 as frozen: with base name `a.b` the unescaped dot
matches any character, so the planner accepts the entry `aXb.1` although it
is not the literal base name followed by a dot and digits. -/
theorem matcher_unescaped_dot :
    code_matches false (nm "a.b") (nm "aXb.1") = true ∧
    spec_matches false (nm "a.b") (nm "aXb.1") = false := by
  decide

/-- Witness for C9 on a metacharacter-free base name with compression on. -/
theorem matcher_literal_witness :
    plain (nm "o") = true ∧
    code_matches true (nm "o") (nm "o.7.gz") =
      spec_matches true (nm "o") (nm "o.7.gz") :=
  ⟨by decide, matcher_literal_on_plain true (nm "o") (nm "o.7.gz")
    (by decide)⟩

/-- C10 (amended): the planner returns a plan whenever the output file name
resolves, its pattern compiles, and the numeric suffix of every matching
entry fits in an `i32`; an entry whose suffix overflows an `i32` instead
makes it panic (`parse::<i32>().unwrap()`), refuting the unqualified
totality claim (see the counterexample). -/
theorem planner_total_when_numbers_fit (c : Bool) (p : RPath)
    (rd : Option Name) (names : List Name) (b : Name) (re : RE)
    (hb : fileName p = some b) (hre : parseBase b = some re)
    (hfit : ∀ n ∈ names, ∀ ds, matchArchive re c n = some ds →
      (parseI32 ds).isSome = true) :
    ∃ rr, next_file c p rd (some names) = .ok rr := by
  obtain ⟨q, hq⟩ := parentPath_of_fileName hb
  obtain ⟨pairs, mo, hs⟩ := scanGo_total re c names [] 0 hfit
  exact ⟨⟨(sortByDigit pairs).map (·.2), archive_name c b (wrap32 (mo + 1))⟩,
    by simp [next_file, hq, hb, hre, hs]⟩

/-- Counterexample for C10 as frozen: a directory entry matching the archive
pattern whose numeric suffix 3000000000 exceeds `i32::MAX` makes the planner
panic. -/
theorem planner_overflow_panics :
    next_file false ⟨false, [PComp.normal (nm "o")]⟩ none
      (some [nm "o.3000000000"]) = RRes.panic := by
  decide

/-- Witness for C10 on a listing with one matching and one foreign entry. -/
theorem planner_total_witness :
    parseBase (nm "o") = some (RE.seq RE.eps (RE.chr 'o')) ∧
    ∃ rr, next_file false ⟨false, [PComp.normal (nm "o")]⟩ none
      (some [nm "o.1", nm "x"]) = .ok rr :=
  ⟨by decide,
   planner_total_when_numbers_fit false ⟨false, [PComp.normal (nm "o")]⟩
     none [nm "o.1", nm "x"] (nm "o") (RE.seq RE.eps (RE.chr 'o'))
     (by decide) (by decide)
     (by
       intro n hn ds hds
       fin_cases hn
       · rw [show matchArchive (RE.seq RE.eps (RE.chr 'o')) false
             (nm "o.1") = some (nm "1") from by decide] at hds
         cases hds
         decide
       · rw [show matchArchive (RE.seq RE.eps (RE.chr 'o')) false
             (nm "x") = none from by decide] at hds
         cases hds)⟩

end StdoutRotator
